import Mathlib

/-!
Verification of the Mute backend's session and model-lifecycle orchestrator
(`src/backend/main.py`, `src/backend/diarization_engine.py`) against its
natural-language specification.

Shallow embedding conventions:
* audio samples are opaque values of a type parameter; time values (seconds)
  are rationals `ℚ` (the source uses Python floats; all constants involved
  are exactly representable);
* Python dicts holding word/segment data become structures; a Python dict
  used as a map becomes an association list;
* results of external engine calls (transcription, diarization) are passed
  in as explicit arguments (oracles), since the engines are outside the
  orchestrator under verification;
* message sends to the client become a list of `ServerMsg` values in send
  order, and the count of engine transcription calls is returned alongside.
-/

/- ===================================================================
   Python string helpers.

   Python compares strings lexicographically by code point; `str.strip`
   removes surrounding whitespace; `sep.join(xs)` interleaves `sep`.
   Lean's built-in `String.le` and `String.trim` do not reduce in the
   kernel, so we model them on the underlying character lists.
   =================================================================== -/

/-- Python string `<=` (lexicographic by code point), on the char lists. -/
def pyLe (a b : String) : Prop := a.data ≤ b.data

instance : DecidableRel pyLe := fun a b => inferInstanceAs (Decidable (a.data ≤ b.data))

instance : IsTotal String pyLe := ⟨fun a b => le_total a.data b.data⟩

instance : IsTrans String pyLe := ⟨fun _ _ _ => le_trans⟩

/-- Python `str.strip()`: drop whitespace from both ends. -/
def pyStrip (s : String) : String :=
  ⟨(((s.data.dropWhile Char.isWhitespace).reverse.dropWhile Char.isWhitespace).reverse)⟩

/-- Python `sep.join(xs)`. -/
def pyJoin (sep : String) (xs : List String) : String := String.intercalate sep xs

/-- Python `sorted` on a list of strings (code-point lexicographic). -/
def pySorted (l : List String) : List String := List.insertionSort pyLe l

/-- Python `set(...)` of a list of strings, as the distinct elements in
first-seen order (the concrete iteration order of a Python set is
unspecified; every use below is order-insensitive: the set is either
sorted afterwards, or only its size and membership matter). -/
def dedupKeepFirst (l : List String) : List String :=
  l.foldl (fun acc x => if x ∈ acc then acc else acc ++ [x]) []

/- ===================================================================
   DiarizationEngine (src/backend/diarization_engine.py)
   =================================================================== -/

/-- A word-level transcription entry `{word, start, end}` (the dict key
`end` is a Lean keyword, rendered `stop`), plus the optional `speaker`
key added by diarization. -/
structure Word where
  word : String
  start : ℚ
  stop : ℚ
  speaker : Option String := none
deriving DecidableEq

/-- A speaker segment `{speaker, start, end}` produced by `diarize`. -/
structure Segment where
  speaker : String
  start : ℚ
  stop : ℚ
deriving DecidableEq

/-- The overlap the source computes between a word and a segment:
`max(0, min(word_end, seg_end) - max(word_start, seg_start))`. -/
def overlapQ (word_start word_end : ℚ) (seg : Segment) : ℚ :=
  max 0 (min word_end seg.stop - max word_start seg.start)

/-- The per-word loop body of `assign_speakers_to_words`: scan segments in
order; `break` with a segment's speaker when the word midpoint falls inside
it, otherwise remember the segment whenever its overlap strictly exceeds
the running maximum (which starts at 0). -/
def assignLoop (word_start word_end word_mid : ℚ) :
    List Segment → Option String → ℚ → Option String
  | [], assigned_speaker, _ => assigned_speaker
  | seg :: rest, assigned_speaker, max_overlap =>
    if seg.start ≤ word_mid ∧ word_mid ≤ seg.stop then some seg.speaker
    else
      let overlap := overlapQ word_start word_end seg
      if max_overlap < overlap then
        assignLoop word_start word_end word_mid rest (some seg.speaker) overlap
      else
        assignLoop word_start word_end word_mid rest assigned_speaker max_overlap

/-- Python `assigned_speaker or "Unknown"`: `None` and the empty string are
both falsy and give `"Unknown"`. -/
def orUnknown : Option String → String
  | none => "Unknown"
  | some s => if s = "" then "Unknown" else s

/-- The speaker label computed for one word by the loop in
`assign_speakers_to_words`. -/
def assignedSpeaker (w : Word) (segments : List Segment) : String :=
  orUnknown (assignLoop w.start w.stop ((w.start + w.stop) / 2) segments none 0)

/-- Source `DiarizationEngine.assign_speakers_to_words`: with no segments the words
are returned unchanged (without any `speaker` key); otherwise each word gets
a `speaker` key from the scan loop. -/
def assign_speakers_to_words (words : List Word) (segments : List Segment) : List Word :=
  if segments = [] then words
  else words.map (fun w => { w with speaker := some (assignedSpeaker w segments) })

/-- Source `DiarizationEngine.format_speakers`: Python builds
`{label: f"Speaker {i+1}" for i, label in enumerate(sorted(set(speakers)))}`;
modelled as an association list in that enumeration order. -/
def format_speakers (speakers : List String) : List (String × String) :=
  (pySorted (dedupKeepFirst speakers)).enum.map
    (fun p => (p.2, "Speaker " ++ toString (p.1 + 1)))

/-- Modelled from the spec: `formatSpeakerNames(labels) -> stable ordinal
mapping` with names "assigned by first-seen order"; used only to compare the
spec's wording against the source's `format_speakers` (which sorts the
distinct labels instead). -/
def format_speakers_first_seen (speakers : List String) : List (String × String) :=
  (dedupKeepFirst speakers).enum.map
    (fun p => (p.2, "Speaker " ++ toString (p.1 + 1)))

/- ===================================================================
   ClientSession (src/backend/main.py, class ClientSession)

   The per-client mutable state. Sample values are irrelevant to the
   orchestrator, so the element type is a parameter. Fields that the
   claims never touch (websocket handle, logging counters) are omitted;
   `active_engine` is modelled as the Boolean "an engine is bound",
   `audio_watchdog_task` as the Boolean "a watchdog task is pending and
   not done".
   =================================================================== -/

/-- Source constant `ClientSession.MAX_BUFFER_SECONDS = 300`. -/
def MAX_BUFFER_SECONDS : ℕ := 300

/-- Source constant `ClientSession.MAX_BUFFER_SAMPLES = 16000 * MAX_BUFFER_SECONDS`. -/
def MAX_BUFFER_SAMPLES : ℕ := 16000 * MAX_BUFFER_SECONDS

structure ClientSession (α : Type) where
  is_recording : Bool
  audio_chunks : List (List α)
  total_samples : ℕ
  continuous_mode : Bool
  lastPartialText : String
  active_engine : Bool
  active_model : Option String
  has_done_first_interval : Bool
  diarization_enabled : Bool
  watchdog_pending : Bool
  first_audio_received : Bool
deriving DecidableEq

/-- Source `ClientSession.__init__`: the state of a freshly connected session. -/
def ClientSession.init (α : Type) : ClientSession α :=
  { is_recording := false
    audio_chunks := []
    total_samples := 0
    continuous_mode := false
    lastPartialText := ""
    active_engine := false
    active_model := none
    has_done_first_interval := false
    diarization_enabled := false
    watchdog_pending := false
    first_audio_received := false }

/-- Source `ClientSession.add_audio`: reject (returning `False`, state unchanged)
when the new total would exceed `MAX_BUFFER_SAMPLES`, else append the chunk
and bump the running total. -/
def ClientSession.add_audio {α : Type} (s : ClientSession α) (audio_samples : List α) :
    Bool × ClientSession α :=
  let new_total := s.total_samples + audio_samples.length
  if MAX_BUFFER_SAMPLES < new_total then (false, s)
  else
    (true, { s with audio_chunks := s.audio_chunks ++ [audio_samples],
                    total_samples := new_total })

/-- Source `ClientSession.get_audio_array`: concatenate all chunks (the source
returns an empty array for an empty chunk list, which is the same). -/
def ClientSession.get_audio_array {α : Type} (s : ClientSession α) : List α :=
  s.audio_chunks.flatten

/-- Source `ClientSession.clear_audio`. -/
def ClientSession.clear_audio {α : Type} (s : ClientSession α) : ClientSession α :=
  { s with audio_chunks := [], total_samples := 0 }

/-- Source `ClientSession.keep_audio_tail(seconds)`: keep only the last
`int(16000 * seconds)` samples. Python's `int()` truncates toward zero,
which is the floor for the nonnegative values used here; the slice
`full_audio[-k:]` is the whole array when `k = 0` (since `-0 == 0`), the
last `k` elements (all of them when `k` exceeds the length) for `k > 0`,
and `full_audio[(-k):]`, i.e. dropping `-k` leading elements, for `k < 0`. -/
def ClientSession.keep_audio_tail {α : Type} (s : ClientSession α) (seconds : ℚ) :
    ClientSession α :=
  let samples_to_keep : ℤ := ⌊16000 * seconds⌋
  if (s.total_samples : ℤ) ≤ samples_to_keep then s
  else
    let full_audio := s.get_audio_array
    let tail_audio :=
      if samples_to_keep = 0 then full_audio
      else if samples_to_keep < 0 then full_audio.drop (-samples_to_keep).toNat
      else full_audio.drop (full_audio.length - samples_to_keep.toNat)
    { s with audio_chunks := [tail_audio], total_samples := tail_audio.length }

/-- Source `ClientSession.get_buffer_seconds`. -/
def ClientSession.get_buffer_seconds {α : Type} (s : ClientSession α) : ℚ :=
  (s.total_samples : ℚ) / 16000

/-- A run of consecutive `add_audio` calls, returning the final session and
the list of returned Booleans in call order. -/
def runAddAudio {α : Type} (s : ClientSession α) :
    List (List α) → ClientSession α × List Bool
  | [] => (s, [])
  | c :: cs =>
    let r := s.add_audio c
    let rest := runAddAudio r.2 cs
    (rest.1, r.1 :: rest.2)

/-- The session/buffer operations a client can drive (claim C9 quantifies
over sequences of these). -/
inductive SessionOp (α : Type) where
  | add (chunk : List α)
  | clear
  | keepTail (seconds : ℚ)

/-- Apply one `SessionOp`. -/
def applyOp {α : Type} (s : ClientSession α) : SessionOp α → ClientSession α
  | .add c => (s.add_audio c).2
  | .clear => s.clear_audio
  | .keepTail q => s.keep_audio_tail q

/-- Apply a sequence of `SessionOp`s left to right. -/
def applyOps {α : Type} (s : ClientSession α) (ops : List (SessionOp α)) : ClientSession α :=
  ops.foldl applyOp s

/-- The buffer bookkeeping invariant: the running counter equals the total
length of the stored chunks. -/
def BufferInv {α : Type} (s : ClientSession α) : Prop :=
  s.total_samples = (s.audio_chunks.map List.length).sum

/- ===================================================================
   MuteServer message handlers (src/backend/main.py, class MuteServer)
   =================================================================== -/

/-- Server-to-client messages relevant to the claims. `finalMsg`'s `model`
is `none` when the source sends the JSON object without a `model` key;
`intervalMsg`'s `speakers` is `none` when the source sends the object
without a `speakers` key. -/
inductive ServerMsg where
  | finalMsg (text : String) (timestamp : ℤ) (model : Option String)
  | intervalMsg (text : String) (speakers : Option (List String)) (is_final : Bool)
  | errorMsg (message : String)
deriving DecidableEq

/-- Source `MuteServer.handle_stop`, as the session transformation plus the list
of messages sent and the number of engine transcription calls issued.
`final_text` is the oracle for `transcribe_final`, `last_transcription`
the engine's cached last non-empty partial result. The keep-warm
bookkeeping `last_inference_time[...] = time.time()` lives in the server
state modelled separately below. -/
def handle_stop {α : Type} (s : ClientSession α)
    (final_text last_transcription : String) :
    ClientSession α × List ServerMsg × ℕ :=
  -- cancel audio watchdog if running
  let s := { s with watchdog_pending := false }
  if s.is_recording = false then (s, [], 0)
  else
    let s := { s with is_recording := false }
    if 0 < s.total_samples ∧ s.active_engine = true then
      -- final transcription; empty results fall back to the last partial
      let text := if final_text = "" ∧ ¬ last_transcription = "" then last_transcription
                  else final_text
      -- finally: clear_audio + end_session
      (s.clear_audio, [ServerMsg.finalMsg text 0 s.active_model], 1)
    else
      (s.clear_audio, [ServerMsg.finalMsg "" 0 none], 0)

/-- The `context_seconds = 2.0` constant of `handle_transcribe_interval`. -/
def context_seconds : ℚ := 2

/-- Oracle for `transcribe_with_timestamps`: the `{text, words}` result. -/
structure TimestampResult where
  text : String
  words : List Word
deriving DecidableEq

/-- Source `MuteServer._format_with_speakers` inner loop: walks the words,
emitting a newline plus a `speaker: ` header whenever the speaker changes
(no newline before the very first header), then the word and a space. -/
def formatWithSpeakersGo : List Word → Option String → List String → List String
  | [], _, result => result
  | w :: rest, current_speaker, result =>
    let speaker := w.speaker.getD "Unknown"
    let result :=
      if ¬ some speaker = current_speaker then
        (result ++ (if current_speaker = none then [] else ["\n"])) ++ [speaker ++ ": "]
      else result
    formatWithSpeakersGo rest (some speaker) (result ++ [w.word ++ " "])

/-- Source `MuteServer._format_with_speakers`. -/
def format_with_speakers (words : List Word) : String :=
  if words = [] then ""
  else pyStrip (pyJoin "" (formatWithSpeakersGo words none []))

/-- Source `MuteServer.handle_transcribe_interval`, with the engine and
diarization results passed as oracles:
`has_ts` — whether the bound engine has `transcribe_with_timestamps`;
`ts_result` — that call's result; `fallback_text` — `transcribe_final`'s
result for engines without timestamps; `diar_loaded` — whether
`self.diarization_engine` exists and `is_loaded`; `diar_segments` — the
result of `diarize` on the snapshot. Returns the new session, the sent
messages, and the number of engine transcription calls. -/
def handle_transcribe_interval {α : Type} (s : ClientSession α)
    (has_ts : Bool) (ts_result : TimestampResult) (fallback_text : String)
    (diar_loaded : Bool) (diar_segments : List Segment) :
    ClientSession α × List ServerMsg × ℕ :=
  if s.is_recording = false then (s, [], 0)
  else if s.total_samples = 0 ∨ s.active_engine = false then
    (s, [ServerMsg.intervalMsg "" none false], 0)
  else
    let buffer_seconds := s.get_buffer_seconds
    let min_buffer := context_seconds + 1
    if buffer_seconds < min_buffer then
      (s, [ServerMsg.intervalMsg "" none false], 0)
    else
      let res :=
        if has_ts then
          let words := ts_result.words
          -- if this is NOT the first interval, skip words in the context window
          let words :=
            if s.has_done_first_interval = true ∧ ¬ words = [] then
              words.filter (fun w => decide (context_seconds - 0.5 ≤ w.start))
            else words
          -- apply speaker diarization if enabled
          let wordsSpeakers :=
            if s.diarization_enabled = true ∧ diar_loaded = true ∧ ¬ words = [] then
              if ¬ diar_segments = [] then
                let words := assign_speakers_to_words words diar_segments
                let raw_speakers := words.map (fun w => w.speaker.getD "Unknown")
                let speaker_map := format_speakers raw_speakers
                let words := words.map (fun w =>
                  let raw_speaker := w.speaker.getD "Unknown"
                  let mapped := (speaker_map.lookup raw_speaker).getD raw_speaker
                  { w with speaker := some mapped })
                -- `list(set(...))`: distinct labels, iteration order abstracted
                (words, dedupKeepFirst (words.map (fun w => w.speaker.getD "Unknown")))
              else (words, [])
            else (words, [])
          let words := wordsSpeakers.1
          let speakers := wordsSpeakers.2
          let text :=
            if ¬ speakers = [] ∧ 1 < speakers.length then format_with_speakers words
            else pyStrip (pyJoin " " (words.map Word.word))
          (text, speakers)
        else
          -- no word timestamps - fall back to whole-buffer transcription
          let text := if fallback_text = "" then "" else pyStrip fallback_text
          (text, [])
      let s := { s with has_done_first_interval := true }
      let s := s.keep_audio_tail context_seconds
      (s, [ServerMsg.intervalMsg res.1 (some res.2) false], 1)

/- ===================================================================
   Keep-warm monitor (MuteServer._keep_warm_monitor and
   MuteServer._get_duration_seconds)
   =================================================================== -/

/-- Source `MuteServer._get_duration_seconds`. The source's dict maps
`"permanent"` to float infinity, but the monitor's tick returns before
this lookup whenever the duration is `"permanent"`, so the function is
modelled on the remaining durations only, with the dict's `.get`
default of 14400 for unknown strings. -/
def get_duration_seconds (duration : String) : ℚ :=
  if duration = "1h" then 3600
  else if duration = "4h" then 14400
  else if duration = "8h" then 28800
  else if duration = "16h" then 57600
  else 14400

/-- One tick of `MuteServer._keep_warm_monitor`: the models marked for
unload. With a `"permanent"` duration the tick skips; otherwise a loaded
model is marked when `now - last_used` strictly exceeds the threshold,
where `last_used` defaults to `now` for a model with no recorded
inference time. -/
def keep_warm_tick_unloads (keep_warm_duration : String) (loaded_models : List String)
    (last_inference_time : String → Option ℚ) (current_time : ℚ) : List String :=
  if keep_warm_duration = "permanent" then []
  else
    let duration_seconds := get_duration_seconds keep_warm_duration
    loaded_models.filter (fun model_id =>
      let last_used := (last_inference_time model_id).getD current_time
      let idle_time := current_time - last_used
      decide (duration_seconds < idle_time))

/- ===================================================================
   Model pool state (MuteServer.__init__, load_model, _unload_model)
   =================================================================== -/

/-- Source constant `MuteServer.MODEL_PARAKEET`. -/
def MODEL_PARAKEET : String := "parakeet"

/-- The server's model-pool fields: the key list of the `engines` dict in
insertion order, the `loaded_models` set (as a list), the `default_model`
string (the source never clears it; there is no unset value), and the
`last_inference_time` dict as an association list. -/
structure ServerModelState where
  engines : List String
  loaded_models : List String
  default_model : String
  last_inference_time : List (String × ℚ)
deriving DecidableEq

/-- Source `MuteServer.__init__`: empty pool, `default_model = MODEL_PARAKEET`. -/
def initServer : ServerModelState :=
  { engines := []
    loaded_models := []
    default_model := MODEL_PARAKEET
    last_inference_time := [] }

/-- Source `MuteServer.load_model` in the case where the external engine load
succeeds: no-op when already loaded, else register the engine and, when the
default is still the `MODEL_PARAKEET` placeholder and this is the only
loaded model, make it the default. A failed external load leaves the state
unchanged and is therefore modelled by not invoking this function. -/
def load_model (st : ServerModelState) (model_id : String) : ServerModelState :=
  if model_id ∈ st.loaded_models then st
  else
    let st := { st with engines := st.engines ++ [model_id],
                        loaded_models := st.loaded_models ++ [model_id] }
    if st.default_model = MODEL_PARAKEET ∧ model_id ∈ st.loaded_models then
      if st.loaded_models.length = 1 then { st with default_model := model_id } else st
    else st

/-- Source `MuteServer._unload_model`: no-op when the model is not in `engines`;
otherwise remove it from `engines`, `loaded_models` and
`last_inference_time`, and when it was the default, reassign the default
to `next(iter(self.engines))` — the first remaining engine in insertion
order — or keep the stale name when no engines remain. -/
def unload_model (st : ServerModelState) (model_id : String) : ServerModelState :=
  if ¬ model_id ∈ st.engines then st
  else
    let st := { st with engines := st.engines.erase model_id,
                        loaded_models := st.loaded_models.erase model_id,
                        last_inference_time :=
                          st.last_inference_time.filter (fun p => ¬ p.1 = model_id) }
    if st.default_model = model_id then
      match st.engines with
      | [] => st
      | e :: _ => { st with default_model := e }
    else st

/-- The pool states reachable from server start through successful model
loads and unloads. -/
inductive Reachable : ServerModelState → Prop where
  | init : Reachable initServer
  | load {st : ServerModelState} (model_id : String) :
      Reachable st → Reachable (load_model st model_id)
  | unload {st : ServerModelState} (model_id : String) :
      Reachable st → Reachable (unload_model st model_id)

/- ===================================================================
   Helper lemmas
   =================================================================== -/

theorem bufferInv_applyOp {α : Type} (s : ClientSession α) (op : SessionOp α)
    (h : BufferInv s) : BufferInv (applyOp s op) := by
  unfold BufferInv at h
  cases op with
  | add c =>
    show BufferInv (s.add_audio c).2
    unfold BufferInv ClientSession.add_audio
    dsimp only
    split
    · exact h
    · simp [h]
  | clear =>
    show BufferInv s.clear_audio
    simp [ClientSession.clear_audio, BufferInv]
  | keepTail q =>
    show BufferInv (s.keep_audio_tail q)
    unfold BufferInv ClientSession.keep_audio_tail
    dsimp only
    split
    · exact h
    · simp

theorem bufferInv_applyOps {α : Type} (ops : List (SessionOp α)) :
    ∀ s : ClientSession α, BufferInv s → BufferInv (applyOps s ops) := by
  induction ops with
  | nil => intro s h; exact h
  | cons op ops ih =>
    intro s h
    exact ih (applyOp s op) (bufferInv_applyOp s op h)

/-- C9: after any sequence of `add_audio`, `clear_audio` and
`keep_audio_tail` operations starting from a fresh session,
`total_samples` equals the sum of the lengths of the arrays stored in
`audio_chunks`, and `get_buffer_seconds` returns `total_samples / 16000`. -/
theorem client_session_buffer_invariant {α : Type} (ops : List (SessionOp α)) :
    (applyOps (ClientSession.init α) ops).total_samples =
      ((applyOps (ClientSession.init α) ops).audio_chunks.map List.length).sum ∧
    (applyOps (ClientSession.init α) ops).get_buffer_seconds =
      ((applyOps (ClientSession.init α) ops).total_samples : ℚ) / 16000 := by
  refine ⟨bufferInv_applyOps ops (ClientSession.init α) ?_, rfl⟩
  simp [BufferInv, ClientSession.init]

/-- C10: when `handle_stop` runs for a session that is not recording, no
message is sent to the client, no engine transcription call is made, and
the session state is unchanged except that a still-pending audio watchdog
task is cancelled. -/
theorem handle_stop_not_recording_frame {α : Type} (s : ClientSession α)
    (final_text last_transcription : String)
    (h : s.is_recording = false) :
    handle_stop s final_text last_transcription =
      ({ s with watchdog_pending := false }, [], 0) := by
  simp [handle_stop, h]

/-- Witness for C10 at a freshly connected session. -/
theorem handle_stop_not_recording_frame_witness :
    handle_stop (ClientSession.init ℕ) "text" "cached" =
      ({ ClientSession.init ℕ with watchdog_pending := false }, [], 0) :=
  handle_stop_not_recording_frame (ClientSession.init ℕ) "text" "cached" rfl

/-- C7: when `handle_stop` runs for a recording session with zero buffered
samples, the server responds with exactly one message,
`final{text: "", timestamp: 0}`, and issues no engine transcription call. -/
theorem handle_stop_empty_buffer {α : Type} (s : ClientSession α)
    (final_text last_transcription : String)
    (hrec : s.is_recording = true) (hbuf : s.total_samples = 0) :
    (handle_stop s final_text last_transcription).2.1 =
      [ServerMsg.finalMsg "" 0 none] ∧
    (handle_stop s final_text last_transcription).2.2 = 0 := by
  simp [handle_stop, hrec, hbuf]

/-- Witness for C7: a recording session with an empty buffer. -/
theorem handle_stop_empty_buffer_witness :
    (handle_stop { ClientSession.init ℕ with is_recording := true } "t" "c").2.1 =
      [ServerMsg.finalMsg "" 0 none] ∧
    (handle_stop { ClientSession.init ℕ with is_recording := true } "t" "c").2.2 = 0 :=
  handle_stop_empty_buffer { ClientSession.init ℕ with is_recording := true } "t" "c" rfl rfl

/-- C3: on a keep-warm tick with a non-permanent duration, a loaded model
is marked for unload exactly when its idle time `now - lastInferenceAt`
strictly exceeds the configured threshold (with `lastInferenceAt`
defaulting to `now`); the thresholds are 1h=3600, 4h=14400, 8h=28800,
16h=57600 seconds; with duration `"permanent"` no model is ever marked.
Concretely, under the 4h threshold an idle time of 5000 s is kept and an
idle time of 15000 s is evicted. -/
theorem keep_warm_tick_spec (duration : String) (loaded : List String)
    (f : String → Option ℚ) (now : ℚ) (m : String)
    (hd : ¬ duration = "permanent") :
    (m ∈ keep_warm_tick_unloads duration loaded f now ↔
       m ∈ loaded ∧ get_duration_seconds duration < now - ((f m).getD now)) ∧
    keep_warm_tick_unloads "permanent" loaded f now = [] ∧
    get_duration_seconds "1h" = 3600 ∧ get_duration_seconds "4h" = 14400 ∧
    get_duration_seconds "8h" = 28800 ∧ get_duration_seconds "16h" = 57600 ∧
    keep_warm_tick_unloads "4h" ["a"] (fun _ => some 95000) 100000 = [] ∧
    keep_warm_tick_unloads "4h" ["a"] (fun _ => some 85000) 100000 = ["a"] := by
  refine ⟨?_, by simp [keep_warm_tick_unloads], rfl, rfl, rfl, rfl, ?_, ?_⟩
  · simp [keep_warm_tick_unloads, hd, List.mem_filter]
  · simp [keep_warm_tick_unloads, get_duration_seconds, List.filter]
    norm_num
  · simp [keep_warm_tick_unloads, get_duration_seconds, List.filter]
    norm_num

/-- Witness for C3: one loaded model, threshold 4h, idle 15000 s. -/
theorem keep_warm_tick_spec_witness :
    ("m" ∈ keep_warm_tick_unloads "4h" ["m"] (fun _ => some 5000) 20000 ↔
       "m" ∈ ["m"] ∧
         get_duration_seconds "4h" < 20000 - (((fun _ : String => (some (5000 : ℚ))) "m").getD 20000)) ∧
    keep_warm_tick_unloads "permanent" ["m"] (fun _ => some 5000) 20000 = [] ∧
    get_duration_seconds "1h" = 3600 ∧ get_duration_seconds "4h" = 14400 ∧
    get_duration_seconds "8h" = 28800 ∧ get_duration_seconds "16h" = 57600 ∧
    keep_warm_tick_unloads "4h" ["a"] (fun _ => some 95000) 100000 = [] ∧
    keep_warm_tick_unloads "4h" ["a"] (fun _ => some 85000) 100000 = ["a"] :=
  keep_warm_tick_spec "4h" ["m"] (fun _ => some 5000) 20000 "m" (by decide)

theorem add_audio_rejected {α : Type} (s : ClientSession α) (c : List α)
    (h : MAX_BUFFER_SAMPLES < s.total_samples + c.length) :
    s.add_audio c = (false, s) := by
  simp [ClientSession.add_audio, h]

theorem add_audio_accepted {α : Type} (s : ClientSession α) (c : List α)
    (h : ¬ MAX_BUFFER_SAMPLES < s.total_samples + c.length) :
    s.add_audio c =
      (true, { s with audio_chunks := s.audio_chunks ++ [c],
                      total_samples := s.total_samples + c.length }) := by
  simp [ClientSession.add_audio, h]

theorem runAddAudio_total {α : Type} (cs : List (List α)) :
    ∀ s : ClientSession α,
      (runAddAudio s cs).1.total_samples =
        s.total_samples +
          (((cs.zip (runAddAudio s cs).2).filter (fun p => p.2)).map
            (fun p => p.1.length)).sum := by
  induction cs with
  | nil => intro s; simp [runAddAudio]
  | cons c cs ih =>
    intro s
    by_cases h : MAX_BUFFER_SAMPLES < s.total_samples + c.length
    · rw [show runAddAudio s (c :: cs) =
        ((runAddAudio (s.add_audio c).2 cs).1,
         (s.add_audio c).1 :: (runAddAudio (s.add_audio c).2 cs).2) from rfl]
      rw [add_audio_rejected s c h]
      simpa using ih s
    · rw [show runAddAudio s (c :: cs) =
        ((runAddAudio (s.add_audio c).2 cs).1,
         (s.add_audio c).1 :: (runAddAudio (s.add_audio c).2 cs).2) from rfl]
      rw [add_audio_accepted s c h]
      have := ih { s with audio_chunks := s.audio_chunks ++ [c],
                          total_samples := s.total_samples + c.length }
      simp at this ⊢
      omega

theorem runAddAudio_flags_length {α : Type} (cs : List (List α)) :
    ∀ s : ClientSession α, (runAddAudio s cs).2.length = cs.length := by
  induction cs with
  | nil => intro s; simp [runAddAudio]
  | cons c cs ih => intro s; simp [runAddAudio, ih]

theorem runAddAudio_total_mono {α : Type} (cs : List (List α)) :
    ∀ s : ClientSession α, s.total_samples ≤ (runAddAudio s cs).1.total_samples := by
  induction cs with
  | nil => intro s; simp [runAddAudio]
  | cons c cs ih =>
    intro s
    by_cases h : MAX_BUFFER_SAMPLES < s.total_samples + c.length
    · rw [show (runAddAudio s (c :: cs)).1 = (runAddAudio (s.add_audio c).2 cs).1 from rfl]
      rw [add_audio_rejected s c h]
      exact ih s
    · rw [show (runAddAudio s (c :: cs)).1 = (runAddAudio (s.add_audio c).2 cs).1 from rfl]
      rw [add_audio_accepted s c h]
      exact le_trans (Nat.le_add_right s.total_samples c.length)
        (ih { s with audio_chunks := s.audio_chunks ++ [c],
                     total_samples := s.total_samples + c.length })

theorem runAddAudio_append {α : Type} (l1 l2 : List (List α)) :
    ∀ s : ClientSession α,
      (runAddAudio s (l1 ++ l2)).1 = (runAddAudio (runAddAudio s l1).1 l2).1 := by
  induction l1 with
  | nil => intro s; rfl
  | cons c l1 ih => intro s; exact ih (s.add_audio c).2

theorem runAddAudio_flag_getD {α : Type} (cs : List (List α)) :
    ∀ (s : ClientSession α) (k : ℕ), k < cs.length →
      (runAddAudio s cs).2.getD k true =
        decide ((runAddAudio s (cs.take k)).1.total_samples +
          (cs.getD k []).length ≤ MAX_BUFFER_SAMPLES) := by
  induction cs with
  | nil => intro s k hk; simp at hk
  | cons c cs ih =>
    intro s k hk
    cases k with
    | zero =>
      rw [show (runAddAudio s (c :: cs)).2 =
        (s.add_audio c).1 :: (runAddAudio (s.add_audio c).2 cs).2 from rfl]
      by_cases h : MAX_BUFFER_SAMPLES < s.total_samples + c.length
      · rw [add_audio_rejected s c h]
        simp [runAddAudio]
        omega
      · rw [add_audio_accepted s c h]
        simp [runAddAudio]
        omega
    | succ k =>
      rw [show (runAddAudio s (c :: cs)).2 =
        (s.add_audio c).1 :: (runAddAudio (s.add_audio c).2 cs).2 from rfl]
      have hk' : k < cs.length := by simpa using hk
      have := ih (s.add_audio c).2 k hk'
      simpa [runAddAudio] using this

theorem runAddAudio_take_mono {α : Type} (s : ClientSession α) (cs : List (List α))
    (i j : ℕ) (hij : i ≤ j) :
    (runAddAudio s (cs.take i)).1.total_samples ≤
      (runAddAudio s (cs.take j)).1.total_samples := by
  have h1 : cs.take j = cs.take i ++ ((cs.drop i).take (j - i)) := by
    rw [← List.take_add]
    congr 1
    omega
  rw [h1, runAddAudio_append]
  exact runAddAudio_total_mono _ _

/-- C2: `add_audio` accepts a chunk (returning `True` and appending it,
bumping the total) exactly when the running total plus the chunk length
stays within `MAX_BUFFER_SAMPLES`; a rejected call returns `False` and
leaves the session unchanged. Over any sequence of calls from a fresh
session the final `total_samples` is the sum of the lengths of the
accepted chunks, and rejection is monotone: once call `i` is rejected,
any later call `j` with a chunk at least as long is also rejected. -/
theorem add_audio_spec {α : Type} (s s0 : ClientSession α) (chunk : List α)
    (chunks : List (List α)) (i j : ℕ)
    (hj : j < chunks.length) (hij : i < j)
    (hrej : (runAddAudio s0 chunks).2.getD i true = false)
    (hlen : (chunks.getD i []).length ≤ (chunks.getD j []).length) :
    ((s.add_audio chunk).1 = true ↔
        s.total_samples + chunk.length ≤ MAX_BUFFER_SAMPLES) ∧
    ((s.add_audio chunk).1 = false → (s.add_audio chunk).2 = s) ∧
    ((s.add_audio chunk).1 = true →
        (s.add_audio chunk).2 =
          { s with audio_chunks := s.audio_chunks ++ [chunk],
                   total_samples := s.total_samples + chunk.length }) ∧
    (runAddAudio (ClientSession.init α) chunks).1.total_samples =
      (((chunks.zip (runAddAudio (ClientSession.init α) chunks).2).filter
          (fun p => p.2)).map (fun p => p.1.length)).sum ∧
    (runAddAudio s0 chunks).2.getD j true = false := by
  have hi : i < chunks.length := lt_trans hij hj
  refine ⟨?_, ?_, ?_, ?_, ?_⟩
  · by_cases h : MAX_BUFFER_SAMPLES < s.total_samples + chunk.length
    · rw [add_audio_rejected s chunk h]
      simp
      omega
    · rw [add_audio_accepted s chunk h]
      simp
      omega
  · by_cases h : MAX_BUFFER_SAMPLES < s.total_samples + chunk.length
    · intro _
      rw [add_audio_rejected s chunk h]
    · intro hf
      rw [add_audio_accepted s chunk h] at hf
      simp at hf
  · by_cases h : MAX_BUFFER_SAMPLES < s.total_samples + chunk.length
    · intro ht
      rw [add_audio_rejected s chunk h] at ht
      simp at ht
    · intro _
      rw [add_audio_accepted s chunk h]
  · have := runAddAudio_total chunks (ClientSession.init α)
    simpa [ClientSession.init] using this
  · rw [runAddAudio_flag_getD chunks s0 j hj]
    rw [runAddAudio_flag_getD chunks s0 i hi] at hrej
    simp only [decide_eq_false_iff_not] at hrej
    simp only [decide_eq_false_iff_not]
    have hmono := runAddAudio_take_mono s0 chunks i j (le_of_lt hij)
    omega

/-- Witness for C2: a session whose buffer already holds the maximum number
of samples; a one-sample chunk is rejected and the next one-sample chunk
(same remaining capacity) is rejected as well. -/
theorem add_audio_spec_witness :
    (runAddAudio { ClientSession.init ℕ with total_samples := 4800000 }
        [[0], [0]]).2.getD 1 true = false := by
  have hrej : (runAddAudio { ClientSession.init ℕ with total_samples := 4800000 }
      [[0], [0]]).2.getD 0 true = false := by
    rw [runAddAudio_flag_getD _ _ 0 (by simp)]
    simp [runAddAudio, ClientSession.init, MAX_BUFFER_SAMPLES, MAX_BUFFER_SECONDS]
  exact (add_audio_spec (ClientSession.init ℕ)
      { ClientSession.init ℕ with total_samples := 4800000 } []
      [[0], [0]] 0 1 (by simp) (by omega) hrej (by simp)).2.2.2.2

/-- C8 (amended): for `s ≥ 1/16000` (so that `int(16000*s) ≥ 1`),
`keep_audio_tail(s)` is a no-op when the buffered duration is at most `s`
seconds, and otherwise reduces the buffer to exactly `⌊16000·s⌋` samples
(within one sample of `16000·s`) consisting of the latest samples;
applying it twice equals applying it once. (The original claim fails for
`0 < s < 1/16000`, where `int(16000*s) = 0` and the Python slice
`full_audio[-0:]` keeps the whole buffer; see the counterexample.) -/
theorem keep_audio_tail_spec {α : Type} (s : ClientSession α) (seconds : ℚ)
    (hInv : s.total_samples = (s.audio_chunks.map List.length).sum)
    (hs : 1 / 16000 ≤ seconds) :
    (s.get_buffer_seconds ≤ seconds → s.keep_audio_tail seconds = s) ∧
    (seconds < s.get_buffer_seconds →
       (s.keep_audio_tail seconds).total_samples = (⌊16000 * seconds⌋).toNat ∧
       ((s.keep_audio_tail seconds).total_samples : ℚ) ≤ 16000 * seconds ∧
       16000 * seconds - 1 < ((s.keep_audio_tail seconds).total_samples : ℚ) ∧
       (s.keep_audio_tail seconds).get_audio_array =
         s.get_audio_array.drop
           (s.get_audio_array.length - (⌊16000 * seconds⌋).toNat)) ∧
    (s.keep_audio_tail seconds).keep_audio_tail seconds =
      s.keep_audio_tail seconds := by
  have h16 : (0 : ℚ) < 16000 := by norm_num
  have hk1 : (1 : ℤ) ≤ ⌊16000 * seconds⌋ := by
    rw [Int.le_floor]
    push_cast
    nlinarith [hs]
  have hcond : ∀ t : ClientSession α,
      ((t.total_samples : ℤ) ≤ ⌊16000 * seconds⌋ ↔ t.get_buffer_seconds ≤ seconds) := by
    intro t
    rw [Int.le_floor]
    unfold ClientSession.get_buffer_seconds
    rw [div_le_iff₀ h16]
    push_cast
    constructor <;> intro h <;> linarith
  have hnoop : ∀ t : ClientSession α,
      t.get_buffer_seconds ≤ seconds → t.keep_audio_tail seconds = t := by
    intro t ht
    simp only [ClientSession.keep_audio_tail]
    rw [if_pos ((hcond t).mpr ht)]
  have hk0 : ¬ (⌊16000 * seconds⌋ = 0) := by omega
  have hkneg : ¬ (⌊16000 * seconds⌋ < 0) := by omega
  have hcast : (((⌊16000 * seconds⌋).toNat : ℕ) : ℚ) = ((⌊16000 * seconds⌋ : ℤ) : ℚ) := by
    exact_mod_cast Int.toNat_of_nonneg (by omega : (0 : ℤ) ≤ ⌊16000 * seconds⌋)
  refine ⟨hnoop s, ?_, ?_⟩
  · intro hlt
    have hnc : ¬ ((s.total_samples : ℤ) ≤ ⌊16000 * seconds⌋) := by
      rw [hcond s]
      exact not_le.mpr hlt
    have hlen : s.get_audio_array.length = s.total_samples := by
      unfold ClientSession.get_audio_array
      rw [List.length_flatten]
      exact hInv.symm
    have heq : s.keep_audio_tail seconds =
        { s with
          audio_chunks := [s.get_audio_array.drop
            (s.get_audio_array.length - (⌊16000 * seconds⌋).toNat)],
          total_samples := (s.get_audio_array.drop
            (s.get_audio_array.length - (⌊16000 * seconds⌋).toNat)).length } := by
      simp only [ClientSession.keep_audio_tail]
      rw [if_neg hnc, if_neg hk0, if_neg hkneg]
    have hklen : (⌊16000 * seconds⌋).toNat < s.total_samples := by omega
    have htail : (s.get_audio_array.drop
        (s.get_audio_array.length - (⌊16000 * seconds⌋).toNat)).length =
        (⌊16000 * seconds⌋).toNat := by
      rw [List.length_drop, hlen]
      omega
    refine ⟨?_, ?_, ?_, ?_⟩
    · rw [heq]
      exact htail
    · rw [heq]
      show ((s.get_audio_array.drop _).length : ℚ) ≤ 16000 * seconds
      rw [htail, hcast]
      exact Int.floor_le _
    · rw [heq]
      show 16000 * seconds - 1 < ((s.get_audio_array.drop _).length : ℚ)
      rw [htail, hcast]
      exact Int.sub_one_lt_floor _
    · rw [heq]
      show ([s.get_audio_array.drop _] : List (List α)).flatten = _
      simp
  · by_cases hc : s.get_buffer_seconds ≤ seconds
    · rw [hnoop s hc]
      exact hnoop s hc
    · have hlt : seconds < s.get_buffer_seconds := not_le.mp hc
      have hnc : ¬ ((s.total_samples : ℤ) ≤ ⌊16000 * seconds⌋) := by
        rw [hcond s]
        exact hc
      have hlen : s.get_audio_array.length = s.total_samples := by
        unfold ClientSession.get_audio_array
        rw [List.length_flatten]
        exact hInv.symm
      have heq : s.keep_audio_tail seconds =
          { s with
            audio_chunks := [s.get_audio_array.drop
              (s.get_audio_array.length - (⌊16000 * seconds⌋).toNat)],
            total_samples := (s.get_audio_array.drop
              (s.get_audio_array.length - (⌊16000 * seconds⌋).toNat)).length } := by
        simp only [ClientSession.keep_audio_tail]
        rw [if_neg hnc, if_neg hk0, if_neg hkneg]
      have htail : (s.get_audio_array.drop
          (s.get_audio_array.length - (⌊16000 * seconds⌋).toNat)).length =
          (⌊16000 * seconds⌋).toNat := by
        rw [List.length_drop, hlen]
        omega
      rw [heq]
      apply hnoop
      show (((s.get_audio_array.drop _).length : ℕ) : ℚ) / 16000 ≤ seconds
      rw [htail, hcast, div_le_iff₀ h16]
      have := Int.floor_le (16000 * seconds)
      linarith

/-- C8 counterexample: with `s = 1/32000 > 0` and a 2-sample buffer
(duration `1/8000 > s`), `int(16000*s) = 0`, the Python slice
`full_audio[-0:]` is the whole array, and the buffer is left at 2 samples
instead of being reduced to `s` seconds (`16000·s = 1/2`, so at most one
sample within the claimed one-sample rounding). -/
theorem keep_audio_tail_small_s_counterexample :
    (1 : ℚ) / 32000 <
      ({ ClientSession.init ℕ with audio_chunks := [[0, 1]], total_samples := 2 } :
        ClientSession ℕ).get_buffer_seconds ∧
    (({ ClientSession.init ℕ with audio_chunks := [[0, 1]], total_samples := 2 } :
        ClientSession ℕ).keep_audio_tail (1 / 32000)).total_samples = 2 ∧
    ¬ ((({ ClientSession.init ℕ with audio_chunks := [[0, 1]], total_samples := 2 } :
        ClientSession ℕ).keep_audio_tail (1 / 32000)).total_samples ≤ 1) := by
  have hfloor : ⌊(16000 : ℚ) * (1 / 32000)⌋ = 0 := by norm_num
  refine ⟨by norm_num [ClientSession.get_buffer_seconds], ?_, ?_⟩
  · simp only [ClientSession.keep_audio_tail, ClientSession.get_audio_array, hfloor]
    norm_num
  · simp only [ClientSession.keep_audio_tail, ClientSession.get_audio_array, hfloor]
    norm_num

/-- Witness for C8 (amended): a 3-sample buffer trimmed with
`s = 1/16000` is reduced to exactly one sample. -/
theorem keep_audio_tail_spec_witness :
    (({ ClientSession.init ℕ with audio_chunks := [[0, 1, 2]], total_samples := 3 } :
        ClientSession ℕ).keep_audio_tail (1 / 16000)).total_samples = 1 := by
  have h := (keep_audio_tail_spec
      { ClientSession.init ℕ with audio_chunks := [[0, 1, 2]], total_samples := 3 }
      (1 / 16000) (by simp) (by norm_num)).2.1
      (by norm_num [ClientSession.get_buffer_seconds])
  rw [h.1]
  norm_num

/-- C1: for an interval transcription with a timestamp-capable engine,
enough buffered audio, and diarization off, the emitted text is assembled
from exactly the engine's words with start time `≥ C - 0.5 = 1.5` seconds
when the session has already completed its first interval, and from all
of the engine's words on the first interval; membership in the filtered
list is exactly "word of the result with start ≥ 1.5 s". -/
theorem interval_context_skip {α : Type} (s : ClientSession α)
    (ts_result : TimestampResult) (fallback_text : String)
    (diar_loaded : Bool) (diar_segments : List Segment)
    (hrec : s.is_recording = true) (heng : s.active_engine = true)
    (hbuf : 48000 ≤ s.total_samples) (hdiar : s.diarization_enabled = false) :
    (handle_transcribe_interval s true ts_result fallback_text
        diar_loaded diar_segments).2.1 =
      [ServerMsg.intervalMsg
        (pyStrip (pyJoin " "
          ((if s.has_done_first_interval = true then
              ts_result.words.filter (fun w => decide ((3 : ℚ) / 2 ≤ w.start))
            else ts_result.words).map Word.word)))
        (some []) false] ∧
    (∀ w : Word,
        w ∈ ts_result.words.filter (fun w => decide ((3 : ℚ) / 2 ≤ w.start)) ↔
          w ∈ ts_result.words ∧ (3 : ℚ) / 2 ≤ w.start) := by
  have h1 : ¬ (s.is_recording = false) := by simp [hrec]
  have hn0 : ¬ (s.total_samples = 0 ∨ s.active_engine = false) := by
    push_neg
    exact ⟨by omega, by simp [heng]⟩
  have hbs : ¬ (s.get_buffer_seconds < context_seconds + 1) := by
    unfold ClientSession.get_buffer_seconds context_seconds
    rw [not_lt]
    rw [le_div_iff₀ (by norm_num : (0 : ℚ) < 16000)]
    norm_num
    exact_mod_cast hbuf
  have hfilter : context_seconds - (0.5 : ℚ) = 3 / 2 := by
    norm_num [context_seconds]
  refine ⟨?_, fun w => by simp [List.mem_filter]⟩
  by_cases hfi : s.has_done_first_interval = true
  · rcases eq_or_ne ts_result.words [] with hw | hw
    · simp [handle_transcribe_interval, h1, hn0, hbs, hdiar, hfi, hw]
    · simp [handle_transcribe_interval, h1, hn0, hbs, hdiar, hfi, hw, hfilter]
  · have hfi' : s.has_done_first_interval = false := by simpa using hfi
    simp [handle_transcribe_interval, h1, hn0, hbs, hdiar, hfi']

/-- Witness for C1: the spec's interval example — words at 0.1, 1.0, 2.3
and 3.0 seconds on a non-first interval keep exactly the words at 2.3 and
3.0. -/
theorem interval_context_skip_witness :
    (handle_transcribe_interval
        { ClientSession.init ℕ with is_recording := true, active_engine := true, total_samples := 48000, has_done_first_interval := true }
        true
        ⟨"", [⟨"a", 1/10, 1/2, none⟩, ⟨"b", 1, 3/2, none⟩, ⟨"c", 23/10, 3, none⟩, ⟨"d", 3, 7/2, none⟩]⟩
        "" false []).2.1 =
      [ServerMsg.intervalMsg "c d" (some []) false] := by
  have h := (interval_context_skip
      { ClientSession.init ℕ with is_recording := true, active_engine := true, total_samples := 48000, has_done_first_interval := true }
      ⟨"", [⟨"a", 1/10, 1/2, none⟩, ⟨"b", 1, 3/2, none⟩, ⟨"c", 23/10, 3, none⟩, ⟨"d", 3, 7/2, none⟩]⟩
      "" false [] rfl rfl (by norm_num) rfl).1
  rw [h]
  norm_num [List.filter]
  decide

theorem dedupKeepFirst_go_mem (l : List String) :
    ∀ (acc : List String) (x : String),
      (x ∈ l.foldl (fun acc x => if x ∈ acc then acc else acc ++ [x]) acc ↔
        x ∈ acc ∨ x ∈ l) := by
  induction l with
  | nil => simp
  | cons a l ih =>
    intro acc x
    simp only [List.foldl_cons]
    by_cases h : a ∈ acc
    · rw [if_pos h, ih]
      simp only [List.mem_cons]
      constructor
      · rintro (hx | hx)
        · exact Or.inl hx
        · exact Or.inr (Or.inr hx)
      · rintro (hx | rfl | hx)
        · exact Or.inl hx
        · exact Or.inl h
        · exact Or.inr hx
    · rw [if_neg h, ih]
      simp only [List.mem_append, List.mem_cons, List.mem_singleton]
      tauto

theorem dedupKeepFirst_mem (l : List String) (x : String) :
    x ∈ dedupKeepFirst l ↔ x ∈ l := by
  unfold dedupKeepFirst
  rw [dedupKeepFirst_go_mem]
  simp

theorem dedupKeepFirst_go_nodup (l : List String) :
    ∀ acc : List String, acc.Nodup →
      (l.foldl (fun acc x => if x ∈ acc then acc else acc ++ [x]) acc).Nodup := by
  induction l with
  | nil => intro acc h; simpa using h
  | cons a l ih =>
    intro acc h
    simp only [List.foldl_cons]
    by_cases ha : a ∈ acc
    · rw [if_pos ha]
      exact ih acc h
    · rw [if_neg ha]
      refine ih (acc ++ [a]) ?_
      simp [List.nodup_append, h, ha]

theorem dedupKeepFirst_nodup (l : List String) : (dedupKeepFirst l).Nodup := by
  unfold dedupKeepFirst
  exact dedupKeepFirst_go_nodup l [] (by simp)

theorem format_speakers_keys (sp : List String) :
    (format_speakers sp).map Prod.fst = pySorted (dedupKeepFirst sp) := by
  unfold format_speakers
  rw [List.map_map]
  rw [show (Prod.fst ∘ fun p : ℕ × String => (p.2, "Speaker " ++ toString (p.1 + 1))) =
    Prod.snd from rfl]
  rw [List.enum_map_snd]

theorem format_speakers_names (sp : List String) :
    (format_speakers sp).map Prod.snd =
      (List.range (pySorted (dedupKeepFirst sp)).length).map
        (fun i => "Speaker " ++ toString (i + 1)) := by
  unfold format_speakers
  rw [List.map_map]
  rw [show (Prod.snd ∘ fun p : ℕ × String => (p.2, "Speaker " ++ toString (p.1 + 1))) =
    ((fun i => "Speaker " ++ toString (i + 1)) ∘ Prod.fst) from rfl]
  rw [← List.map_map, List.enum_map_fst]

/-- C6 (amended): `format_speakers` assigns the ordinal names
`"Speaker 1"`, `"Speaker 2"`, … to the distinct labels of the input in
lexicographically sorted order (Python `sorted(set(...))`), not in
first-seen order: the mapping's keys are exactly the distinct input
labels, pairwise sorted, and the names are `"Speaker "` followed by the
position 1..n in that sorted order, so each distinct label gets exactly
one name. -/
theorem format_speakers_spec (labels : List String) :
    ((format_speakers labels).map Prod.fst).Nodup ∧
    (∀ x, x ∈ (format_speakers labels).map Prod.fst ↔ x ∈ labels) ∧
    List.Pairwise pyLe ((format_speakers labels).map Prod.fst) ∧
    (format_speakers labels).map Prod.snd =
      (List.range ((format_speakers labels).length)).map
        (fun i => "Speaker " ++ toString (i + 1)) := by
  have hkeys := format_speakers_keys labels
  have hperm : (pySorted (dedupKeepFirst labels)).Perm (dedupKeepFirst labels) :=
    List.perm_insertionSort pyLe _
  have hlen : (format_speakers labels).length =
      (pySorted (dedupKeepFirst labels)).length := by
    have := congrArg List.length hkeys
    rwa [List.length_map] at this
  refine ⟨?_, ?_, ?_, ?_⟩
  · rw [hkeys]
    exact hperm.nodup_iff.mpr (dedupKeepFirst_nodup labels)
  · intro x
    rw [hkeys, hperm.mem_iff, dedupKeepFirst_mem]
  · rw [hkeys]
    exact List.sorted_insertionSort pyLe _
  · rw [format_speakers_names, hlen]

/-- C6 counterexample: `format_speakers` orders by `sorted(set(...))`, not
by first-seen order: on input `["SPEAKER_01", "SPEAKER_00"]` the source
maps `SPEAKER_01` to `"Speaker 2"`, whereas the claimed first-seen
assignment maps it to `"Speaker 1"`. -/
theorem format_speakers_counterexample :
    format_speakers ["SPEAKER_01", "SPEAKER_00"] =
      [("SPEAKER_00", "Speaker 1"), ("SPEAKER_01", "Speaker 2")] ∧
    format_speakers_first_seen ["SPEAKER_01", "SPEAKER_00"] =
      [("SPEAKER_01", "Speaker 1"), ("SPEAKER_00", "Speaker 2")] ∧
    (format_speakers ["SPEAKER_01", "SPEAKER_00"]).lookup "SPEAKER_01" =
      some "Speaker 2" ∧
    ¬ format_speakers ["SPEAKER_01", "SPEAKER_00"] =
        format_speakers_first_seen ["SPEAKER_01", "SPEAKER_00"] := by
  refine ⟨by decide, by decide, by decide, by decide⟩

theorem assignLoop_find_some (ws we mid : ℚ) (segs : List Segment) :
    ∀ (acc : Option String) (m : ℚ) (seg : Segment),
      segs.find? (fun sg => decide (sg.start ≤ mid ∧ mid ≤ sg.stop)) = some seg →
      assignLoop ws we mid segs acc m = some seg.speaker := by
  induction segs with
  | nil => intro acc m seg h; simp at h
  | cons a rest ih =>
    intro acc m seg h
    by_cases ha : a.start ≤ mid ∧ mid ≤ a.stop
    · rw [List.find?_cons_of_pos _ (by simpa using ha)] at h
      have haseg : a = seg := by
        simpa using h
      subst haseg
      simp only [assignLoop]
      rw [if_pos ha]
    · rw [List.find?_cons_of_neg _ (by simpa using ha)] at h
      simp only [assignLoop]
      rw [if_neg ha]
      split
      · exact ih _ _ seg h
      · exact ih _ _ seg h

theorem assignLoop_no_beat (ws we mid : ℚ) (segs : List Segment) :
    ∀ (acc : Option String) (m : ℚ),
      segs.find? (fun sg => decide (sg.start ≤ mid ∧ mid ≤ sg.stop)) = none →
      (∀ sg ∈ segs, overlapQ ws we sg ≤ m) →
      assignLoop ws we mid segs acc m = acc := by
  induction segs with
  | nil => intro acc m _ _; rfl
  | cons a rest ih =>
    intro acc m hf hle
    have ha : ¬ (a.start ≤ mid ∧ mid ≤ a.stop) := by
      have := List.find?_eq_none.mp hf a (by simp)
      simpa using this
    have hrest : rest.find? (fun sg => decide (sg.start ≤ mid ∧ mid ≤ sg.stop)) = none := by
      rw [List.find?_eq_none]
      intro x hx
      exact List.find?_eq_none.mp hf x (by simp [hx])
    simp only [assignLoop]
    rw [if_neg ha]
    rw [if_neg (not_lt.mpr (hle a (by simp)))]
    exact ih acc m hrest (fun sg hsg => hle sg (by simp [hsg]))

theorem assignLoop_first_max (ws we mid : ℚ) (segs : List Segment) :
    ∀ (acc : Option String) (m : ℚ) (i : ℕ) (hi : i < segs.length),
      segs.find? (fun sg => decide (sg.start ≤ mid ∧ mid ≤ sg.stop)) = none →
      m < overlapQ ws we (segs.get ⟨i, hi⟩) →
      (∀ (j : ℕ) (hj : j < segs.length), j < i →
         overlapQ ws we (segs.get ⟨j, hj⟩) < overlapQ ws we (segs.get ⟨i, hi⟩)) →
      (∀ (j : ℕ) (hj : j < segs.length),
         overlapQ ws we (segs.get ⟨j, hj⟩) ≤ overlapQ ws we (segs.get ⟨i, hi⟩)) →
      assignLoop ws we mid segs acc m = some ((segs.get ⟨i, hi⟩).speaker) := by
  induction segs with
  | nil => intro acc m i hi; simp at hi
  | cons a rest ih =>
    intro acc m i hi hf hm hearly hall
    have ha : ¬ (a.start ≤ mid ∧ mid ≤ a.stop) := by
      have := List.find?_eq_none.mp hf a (by simp)
      simpa using this
    have hrest : rest.find? (fun sg => decide (sg.start ≤ mid ∧ mid ≤ sg.stop)) = none := by
      rw [List.find?_eq_none]
      intro x hx
      exact List.find?_eq_none.mp hf x (by simp [hx])
    simp only [assignLoop]
    rw [if_neg ha]
    cases i with
    | zero =>
      rw [if_pos (show m < overlapQ ws we a from hm)]
      refine assignLoop_no_beat ws we mid rest _ _ hrest ?_
      intro sg hsg
      obtain ⟨⟨j, hj⟩, rfl⟩ := List.mem_iff_get.mp hsg
      exact hall (j + 1) (Nat.succ_lt_succ hj)
    | succ k =>
      have hk : k < rest.length := Nat.lt_of_succ_lt_succ hi
      by_cases hma : m < overlapQ ws we a
      · rw [if_pos hma]
        refine ih (some a.speaker) (overlapQ ws we a) k hk hrest ?_ ?_ ?_
        · exact hearly 0 (Nat.succ_pos _) (Nat.succ_pos _)
        · intro j hj hjk
          exact hearly (j + 1) (Nat.succ_lt_succ hj) (Nat.succ_lt_succ hjk)
        · intro j hj
          exact hall (j + 1) (Nat.succ_lt_succ hj)
      · rw [if_neg hma]
        refine ih acc m k hk hrest ?_ ?_ ?_
        · exact hm
        · intro j hj hjk
          exact hearly (j + 1) (Nat.succ_lt_succ hj) (Nat.succ_lt_succ hjk)
        · intro j hj
          exact hall (j + 1) (Nat.succ_lt_succ hj)

/-- C5 (amended): with a nonempty segment list, each word is labeled with
the speaker of the first segment containing the word's midpoint when one
exists; otherwise with the speaker of the earliest segment attaining the
maximum interval overlap when that maximum is positive (a tie for the
maximum resolves to the earliest tied segment, not to "Unknown"); and
with "Unknown" only when no segment overlaps the word at all. With an
empty segment list the words are returned without speaker labels.
(Python's `or` also turns an empty-string speaker label into "Unknown",
hence the `orUnknown` wrapper.) -/
theorem assign_speakers_spec (words : List Word) (segments : List Segment) :
    (segments = [] → assign_speakers_to_words words segments = words) ∧
    (¬ segments = [] →
       assign_speakers_to_words words segments =
         words.map (fun w => { w with speaker := some (assignedSpeaker w segments) })) ∧
    (∀ (w : Word) (seg : Segment),
       segments.find? (fun sg =>
           decide (sg.start ≤ (w.start + w.stop) / 2 ∧ (w.start + w.stop) / 2 ≤ sg.stop)) =
         some seg →
       assignedSpeaker w segments = orUnknown (some seg.speaker)) ∧
    (∀ w : Word,
       segments.find? (fun sg =>
           decide (sg.start ≤ (w.start + w.stop) / 2 ∧ (w.start + w.stop) / 2 ≤ sg.stop)) =
         none →
       ((∀ sg ∈ segments, overlapQ w.start w.stop sg = 0) →
          assignedSpeaker w segments = "Unknown") ∧
       (∀ (i : ℕ) (hi : i < segments.length),
          0 < overlapQ w.start w.stop (segments.get ⟨i, hi⟩) →
          (∀ (j : ℕ) (hj : j < segments.length), j < i →
             overlapQ w.start w.stop (segments.get ⟨j, hj⟩) <
               overlapQ w.start w.stop (segments.get ⟨i, hi⟩)) →
          (∀ (j : ℕ) (hj : j < segments.length),
             overlapQ w.start w.stop (segments.get ⟨j, hj⟩) ≤
               overlapQ w.start w.stop (segments.get ⟨i, hi⟩)) →
          assignedSpeaker w segments =
            orUnknown (some ((segments.get ⟨i, hi⟩).speaker)))) := by
  refine ⟨?_, ?_, ?_, ?_⟩
  · intro h
    simp [assign_speakers_to_words, h]
  · intro h
    simp [assign_speakers_to_words, h]
  · intro w seg hfind
    unfold assignedSpeaker
    rw [assignLoop_find_some w.start w.stop ((w.start + w.stop) / 2) segments none 0 seg hfind]
  · intro w hfind
    constructor
    · intro hzero
      unfold assignedSpeaker
      rw [assignLoop_no_beat w.start w.stop ((w.start + w.stop) / 2) segments none 0 hfind
        (fun sg hsg => le_of_eq (hzero sg hsg))]
      rfl
    · intro i hi hpos hearly hall
      unfold assignedSpeaker
      rw [assignLoop_first_max w.start w.stop ((w.start + w.stop) / 2) segments none 0 i hi
        hfind hpos hearly hall]

/-- C5 counterexample: word `[0,4]` (midpoint 2) against segments
`SPEAKER_00:[0,1]` and `SPEAKER_01:[3,4]` — the midpoint lies in neither
segment and both overlaps equal 1 (a tie), yet the word is assigned
`SPEAKER_00` (the first segment in list order), not `"Unknown"` as the
claim requires for ties. -/
theorem assign_speakers_tie_counterexample :
    assign_speakers_to_words [⟨"w", 0, 4, none⟩]
        [⟨"SPEAKER_00", 0, 1⟩, ⟨"SPEAKER_01", 3, 4⟩] =
      [⟨"w", 0, 4, some "SPEAKER_00"⟩] ∧
    overlapQ 0 4 ⟨"SPEAKER_00", 0, 1⟩ = overlapQ 0 4 ⟨"SPEAKER_01", 3, 4⟩ ∧
    ¬ ("SPEAKER_00" = "Unknown") := by
  refine ⟨?_, by norm_num [overlapQ], by decide⟩
  norm_num [assign_speakers_to_words, assignedSpeaker, assignLoop, overlapQ, orUnknown]
  simp

/-- Witness for C5 (amended): the spec's example — word `[1,2]` (midpoint
1.5) against `SPEAKER_00:[0,1.4]` and `SPEAKER_01:[1.4,3]` is assigned
`SPEAKER_01`, whose segment contains the midpoint. -/
theorem assign_speakers_spec_witness :
    assignedSpeaker ⟨"hi", 1, 2, none⟩
        [⟨"SPEAKER_00", 0, 7/5⟩, ⟨"SPEAKER_01", 7/5, 3⟩] = "SPEAKER_01" := by
  have h := (assign_speakers_spec [⟨"hi", 1, 2, none⟩]
      [⟨"SPEAKER_00", 0, 7/5⟩, ⟨"SPEAKER_01", 7/5, 3⟩]).2.2.1
      ⟨"hi", 1, 2, none⟩ ⟨"SPEAKER_01", 7/5, 3⟩ ?hfind
  · rw [h]
    decide
  case hfind =>
    simp only [List.find?]
    norm_num

theorem unload_model_not_mem {st : ServerModelState} {m : String}
    (hm : ¬ m ∈ st.engines) : unload_model st m = st := by
  unfold unload_model
  rw [if_pos hm]

theorem unload_model_mem_not_default {st : ServerModelState} {m : String}
    (hm : m ∈ st.engines) (hd : ¬ st.default_model = m) :
    unload_model st m =
      { st with engines := st.engines.erase m,
                loaded_models := st.loaded_models.erase m,
                last_inference_time :=
                  st.last_inference_time.filter (fun p => ¬ p.1 = m) } := by
  unfold unload_model
  rw [if_neg (not_not_intro hm), if_neg hd]

theorem unload_model_mem_default {st : ServerModelState} {m : String}
    (hm : m ∈ st.engines) (hd : st.default_model = m) :
    unload_model st m =
      (match st.engines.erase m with
       | [] =>
         { st with engines := st.engines.erase m,
                   loaded_models := st.loaded_models.erase m,
                   last_inference_time :=
                     st.last_inference_time.filter (fun p => ¬ p.1 = m) }
       | e :: _ =>
         { st with engines := st.engines.erase m,
                   loaded_models := st.loaded_models.erase m,
                   last_inference_time :=
                     st.last_inference_time.filter (fun p => ¬ p.1 = m),
                   default_model := e }) := by
  unfold unload_model
  rw [if_neg (not_not_intro hm), if_pos hd]

theorem unload_model_mem_default_nil {st : ServerModelState} {m : String}
    (hm : m ∈ st.engines) (hd : st.default_model = m)
    (he : st.engines.erase m = []) :
    unload_model st m =
      { st with engines := [],
                loaded_models := st.loaded_models.erase m,
                last_inference_time :=
                  st.last_inference_time.filter (fun p => ¬ p.1 = m) } := by
  rw [unload_model_mem_default hm hd, he]

theorem unload_model_mem_default_cons {st : ServerModelState} {m e : String}
    {l' : List String}
    (hm : m ∈ st.engines) (hd : st.default_model = m)
    (he : st.engines.erase m = e :: l') :
    unload_model st m =
      { st with engines := e :: l',
                loaded_models := st.loaded_models.erase m,
                last_inference_time :=
                  st.last_inference_time.filter (fun p => ¬ p.1 = m),
                default_model := e } := by
  rw [unload_model_mem_default hm hd, he]

theorem pool_inv_load (st : ServerModelState) (m : String)
    (h : st.engines.Nodup ∧ st.loaded_models.Nodup ∧
      (∀ x, x ∈ st.engines ↔ x ∈ st.loaded_models)) :
    (load_model st m).engines.Nodup ∧ (load_model st m).loaded_models.Nodup ∧
      (∀ x, x ∈ (load_model st m).engines ↔ x ∈ (load_model st m).loaded_models) := by
  obtain ⟨h1, h2, h3⟩ := h
  unfold load_model
  by_cases hm : m ∈ st.loaded_models
  · rw [if_pos hm]
    exact ⟨h1, h2, h3⟩
  · rw [if_neg hm]
    dsimp only
    have hme : ¬ m ∈ st.engines := fun hc => hm ((h3 m).mp hc)
    have key : (st.engines ++ [m]).Nodup ∧ (st.loaded_models ++ [m]).Nodup ∧
        (∀ x, x ∈ st.engines ++ [m] ↔ x ∈ st.loaded_models ++ [m]) := by
      refine ⟨?_, ?_, ?_⟩
      · simp [List.nodup_append, h1, hme]
      · simp [List.nodup_append, h2, hm]
      · intro x
        simp [List.mem_append, h3 x]
    split
    · split
      · exact key
      · exact key
    · exact key

theorem pool_inv_unload (st : ServerModelState) (m : String)
    (h : st.engines.Nodup ∧ st.loaded_models.Nodup ∧
      (∀ x, x ∈ st.engines ↔ x ∈ st.loaded_models)) :
    (unload_model st m).engines.Nodup ∧ (unload_model st m).loaded_models.Nodup ∧
      (∀ x, x ∈ (unload_model st m).engines ↔ x ∈ (unload_model st m).loaded_models) := by
  obtain ⟨h1, h2, h3⟩ := h
  have key : (st.engines.erase m).Nodup ∧ (st.loaded_models.erase m).Nodup ∧
      (∀ x, x ∈ st.engines.erase m ↔ x ∈ st.loaded_models.erase m) := by
    refine ⟨h1.erase m, h2.erase m, ?_⟩
    intro x
    rw [h1.mem_erase_iff, h2.mem_erase_iff, h3 x]
  by_cases hm : m ∈ st.engines
  · by_cases hd : st.default_model = m
    · rcases he : st.engines.erase m with _ | ⟨e, l'⟩
      · rw [unload_model_mem_default_nil hm hd he]
        rw [he] at key
        exact key
      · rw [unload_model_mem_default_cons hm hd he]
        rw [he] at key
        exact key
    · rw [unload_model_mem_not_default hm hd]
      exact key
  · rw [unload_model_not_mem hm]
    exact ⟨h1, h2, h3⟩

theorem reachable_pool_inv (st : ServerModelState) (h : Reachable st) :
    st.engines.Nodup ∧ st.loaded_models.Nodup ∧
      (∀ x, x ∈ st.engines ↔ x ∈ st.loaded_models) := by
  induction h with
  | init => simp [initServer]
  | load m _ ih => exact pool_inv_load _ m ih
  | unload m _ ih => exact pool_inv_unload _ m ih

/-- C4 (amended): the source's default-model pointer is a plain string
that is never unset, so the claimed invariant fails (see the
counterexample: after unloading the last model, or at startup, the
default names a model that is not loaded). What holds instead: in any
reachable pool state whose default names a loaded model, unloading a
model leaves the default naming a loaded model whenever the pool stays
nonempty (reassigning it to the first remaining engine when the default
itself was unloaded); unloading a non-default model never changes the
default; and when the pool becomes empty the stale default name is
retained unchanged. -/
theorem unload_model_default_spec (st : ServerModelState) (m : String)
    (hre : Reachable st)
    (hdef : st.default_model ∈ st.loaded_models) :
    (¬ (unload_model st m).engines = [] →
       (unload_model st m).default_model ∈ (unload_model st m).loaded_models) ∧
    (¬ m = st.default_model →
       (unload_model st m).default_model = st.default_model) ∧
    ((unload_model st m).engines = [] →
       (unload_model st m).default_model = st.default_model) := by
  obtain ⟨h1, h2, h3⟩ := reachable_pool_inv st hre
  refine ⟨?_, ?_, ?_⟩
  · intro hne
    by_cases hm : m ∈ st.engines
    · by_cases hd : st.default_model = m
      · rcases he : st.engines.erase m with _ | ⟨e, l'⟩
        · rw [unload_model_mem_default_nil hm hd he] at hne
          exact absurd rfl hne
        · rw [unload_model_mem_default_cons hm hd he]
          show e ∈ st.loaded_models.erase m
          have he' : e ∈ st.engines.erase m := by
            rw [he]
            exact List.mem_cons_self e l'
          have hee := (h1.mem_erase_iff).mp he'
          exact (List.mem_erase_of_ne hee.1).mpr ((h3 e).mp hee.2)
      · rw [unload_model_mem_not_default hm hd]
        show st.default_model ∈ st.loaded_models.erase m
        exact (List.mem_erase_of_ne hd).mpr hdef
    · rw [unload_model_not_mem hm]
      exact hdef
  · intro hmd
    by_cases hm : m ∈ st.engines
    · rw [unload_model_mem_not_default hm (fun hc => hmd hc.symm)]
    · rw [unload_model_not_mem hm]
  · intro hemp
    by_cases hm : m ∈ st.engines
    · by_cases hd : st.default_model = m
      · rcases he : st.engines.erase m with _ | ⟨e, l'⟩
        · rw [unload_model_mem_default_nil hm hd he]
        · rw [unload_model_mem_default_cons hm hd he] at hemp
          exact absurd hemp (List.cons_ne_nil e l')
      · rw [unload_model_mem_not_default hm hd]
    · rw [unload_model_not_mem hm]

/-- C4 counterexample: load `"parakeet"` and unload it again — a
reachable state whose pool is empty while the default still names
`"parakeet"` (the source keeps the stale string; `default_model` has no
unset value), so the claimed invariant "the default names a
currently-loaded model or is unset" does not hold in every reachable
state. -/
theorem default_model_stale_counterexample :
    Reachable (unload_model (load_model initServer "parakeet") "parakeet") ∧
    (unload_model (load_model initServer "parakeet") "parakeet").loaded_models = [] ∧
    (unload_model (load_model initServer "parakeet") "parakeet").default_model =
      "parakeet" ∧
    ¬ ((unload_model (load_model initServer "parakeet") "parakeet").default_model ∈
        (unload_model (load_model initServer "parakeet") "parakeet").loaded_models) := by
  refine ⟨Reachable.unload "parakeet" (Reachable.load "parakeet" Reachable.init),
    by decide, by decide, by decide⟩

/-- Witness for C4 (amended): with `"parakeet"` and `"base"` loaded and
`"parakeet"` the default, unloading `"parakeet"` reassigns the default to
the remaining loaded model `"base"`. -/
theorem unload_model_default_spec_witness :
    (unload_model (load_model (load_model initServer "parakeet") "base")
        "parakeet").default_model ∈
      (unload_model (load_model (load_model initServer "parakeet") "base")
        "parakeet").loaded_models :=
  (unload_model_default_spec (load_model (load_model initServer "parakeet") "base")
    "parakeet"
    (Reachable.load "base" (Reachable.load "parakeet" Reachable.init))
    (by decide)).1 (by decide)
